import Mathlib

/-!
Verification of the GICES-ORQUESTA ingestion pipeline core
(pdf_loader, text_chunker, embeddings_engine, knowledge_builder, and the
app's build-and-save step), shallowly embedded in Lean.

Python strings are modeled as `List Char`; Python `str.split()` (split on
whitespace runs, dropping empties), `str.strip()` and `" ".join(...)` are
modeled character by character.  The per-page `while` loop of the chunker
is modeled with explicit fuel: `none` means the fuel ran out, i.e. the
loop performed more iterations than the given bound (for a loop that makes
no forward progress this holds for every fuel, which models divergence).
-/

namespace Gices

/-! ### Python string primitives -/

/-- Python `str.strip()` on a character list: drop whitespace from the left,
then from the right (via reverse). -/
def pyStrip (s : List Char) : List Char :=
  (((s.dropWhile Char.isWhitespace).reverse).dropWhile Char.isWhitespace).reverse

/-- Worker for `pySplit`: `acc` holds the current word reversed. -/
def pySplitAux : List Char → List Char → List (List Char)
  | [], acc => if acc = [] then [] else [acc.reverse]
  | c :: cs, acc =>
    if c.isWhitespace then
      if acc = [] then pySplitAux cs [] else acc.reverse :: pySplitAux cs []
    else
      pySplitAux cs (c :: acc)

/-- Python `str.split()` with no argument: split on runs of whitespace,
no empty words. -/
def pySplit (s : List Char) : List (List Char) := pySplitAux s []

/-- Python `" ".join(words)`. -/
def joinWords : List (List Char) → List Char
  | [] => []
  | [w] => w
  | w :: ws => w ++ ' ' :: joinWords ws

/-- One decimal digit as a character. -/
def digitChar (d : Nat) : Char :=
  if d = 0 then '0' else if d = 1 then '1' else if d = 2 then '2'
  else if d = 3 then '3' else if d = 4 then '4' else if d = 5 then '5'
  else if d = 6 then '6' else if d = 7 then '7' else if d = 8 then '8' else '9'

/-- Numeric value of a digit character. -/
def digitVal (c : Char) : Nat := c.toNat - 48

/-- Fuel-driven decimal rendering (most significant digit first). -/
def natDigitsAux : Nat → Nat → List Char
  | 0, _ => []
  | fuel + 1, n =>
    if n < 10 then [digitChar n]
    else natDigitsAux fuel (n / 10) ++ [digitChar (n % 10)]

/-- Decimal rendering of a natural number, as Python's f-string `{n}` writes it. -/
def natDigits (n : Nat) : List Char := natDigitsAux (n + 1) n

/-- Value of a digit string (left fold, base 10). -/
def natVal (s : List Char) : Nat := s.foldl (fun a c => a * 10 + digitVal c) 0

/-! ### pdf_loader.py -/

/-- `PDFPage` dataclass. -/
structure PDFPage where
  page_number : Nat
  text : List Char
deriving DecidableEq

/-- `PDFDocument` dataclass. -/
structure PDFDocument where
  doc_id : List Char
  title : List Char
  source_path : List Char
  pages : List PDFPage
deriving DecidableEq

/-- A `pathlib.Path` as the loader consumes it: its string form and its
stem (base name without extension), both computed by the pathlib library
outside this core. -/
structure PyPath where
  toStr : List Char
  stem : List Char
deriving DecidableEq

/-- Outcome of `PdfReader(path)` plus `extract_text()` on each page, the
external capability `load_pdfs` consumes: either the constructor/parse
raises, or it yields the raw text of each page in order (pypdf's
`extract_text() or ""` already folded to a plain character list). -/
inductive FileRead where
  | failure : FileRead
  | pages : List (List Char) → FileRead
deriving DecidableEq

/-- The page loop of `load_pdfs`: `enumerate(reader.pages)`, strip each
page's text, keep only non-empty pages, numbering from 1. -/
def pagesOf (raw : List (List Char)) : List PDFPage :=
  raw.enum.filterMap (fun ie =>
    let text := pyStrip ie.2
    if text = [] then none else some ⟨ie.1 + 1, text⟩)

/-- The per-file body of `load_pdfs`'s loop: `none` when the file is
skipped (read failure, or no page with useful text). -/
def loadOne (reader : PyPath → FileRead) (p : PyPath) : Option PDFDocument :=
  match reader p with
  | .failure => none
  | .pages raw =>
    let pages := pagesOf raw
    if pages = [] then none
    else some ⟨p.stem, p.stem, p.toStr, pages⟩

/-- `load_pdfs`: load each path in order, skipping failed/empty files. -/
def load_pdfs (reader : PyPath → FileRead) : List PyPath → List PDFDocument
  | [] => []
  | p :: rest =>
    match loadOne reader p with
    | none => load_pdfs reader rest
    | some doc => doc :: load_pdfs reader rest

/-! ### text_chunker.py -/

/-- `TextChunk` dataclass. -/
structure TextChunk where
  chunk_id : List Char
  doc_id : List Char
  page : Nat
  position : Nat
  text : List Char
deriving DecidableEq

/-- The f-string `f"{doc_id}_p{page.page_number}_c{position}"`. -/
def chunkId (docId : List Char) (pageNumber position : Nat) : List Char :=
  docId ++ '_' :: 'p' :: natDigits pageNumber ++ '_' :: 'c' :: natDigits position

/-- The per-page `while start < len(words)` loop of `chunk_documents`,
with explicit fuel (one unit per iteration); `none` means the iteration
bound was exceeded.  `words.drop start |>.take chunk_size` is the slice
`words[start : start + chunk_size]`; `max 0 (end_ - overlap)` is
`max(0, end - overlap)` (Nat subtraction already truncates at 0). -/
def chunkLoop (chunk_size overlap : Nat) (docId : List Char) (pageNumber : Nat)
    (words : List (List Char)) : Nat → Nat → Nat → Option (List TextChunk)
  | 0, _, _ => none
  | fuel + 1, start, position =>
    if start < words.length then
      let end_ := start + chunk_size
      let fragment_words := (words.drop start).take chunk_size
      let text := pyStrip (joinWords fragment_words)
      if text = [] then
        some []
      else
        let c : TextChunk :=
          ⟨chunkId docId pageNumber position, docId, pageNumber, position, text⟩
        if words.length ≤ end_ then
          some [c]
        else
          match chunkLoop chunk_size overlap docId pageNumber words fuel
              (max 0 (end_ - overlap)) (position + 1) with
          | none => none
          | some rest => some (c :: rest)
    else
      some []

/-- Canonical fuel for `chunkLoop`: one more than the word count.  When
`overlap < chunk_size` the loop's start index strictly increases, so it
iterates at most `words.length` times and this fuel is never exhausted. -/
def chunkPage (chunk_size overlap : Nat) (docId : List Char) (pageNumber : Nat)
    (text : List Char) : Option (List TextChunk) :=
  let words := pySplit text
  if words = [] then some []
  else chunkLoop chunk_size overlap docId pageNumber words (words.length + 1) 0 1

/-- The `for page in doc.pages` loop of `chunk_documents`. -/
def chunkPages (chunk_size overlap : Nat) (docId : List Char) :
    List PDFPage → Option (List TextChunk)
  | [] => some []
  | pg :: rest =>
    match chunkPage chunk_size overlap docId pg.page_number pg.text with
    | none => none
    | some cks =>
      match chunkPages chunk_size overlap docId rest with
      | none => none
      | some more => some (cks ++ more)

/-- The `for doc in documents` loop of `chunk_documents`. -/
def chunkDocs (chunk_size overlap : Nat) : List PDFDocument → Option (List TextChunk)
  | [] => some []
  | doc :: rest =>
    match chunkPages chunk_size overlap doc.doc_id doc.pages with
    | none => none
    | some cks =>
      match chunkDocs chunk_size overlap rest with
      | none => none
      | some more => some (cks ++ more)

/-- `chunk_documents(documents, chunk_size=800, overlap=200)`.  `none`
models the per-page loop exceeding its iteration bound, which (for
`overlap ≥ chunk_size` on a long enough page) is how the source's
unbounded `while` loop diverges. -/
def chunk_documents (documents : List PDFDocument)
    (chunk_size : Nat := 800) (overlap : Nat := 200) : Option (List TextChunk) :=
  chunkDocs chunk_size overlap documents

/-! ### embeddings_engine.py -/

/-- An embedding vector (Python `List[float]`, values never computed on
here, modeled as rationals). -/
abbrev Embedding := List Rat

/-- Fuel-driven ascending Python `range`; callers pass sufficient fuel
(`max step 1` only guards the measure, the guard `0 < step` in `pyRange`
means it is always just `step` when reached). -/
def pyRangeUpAux : Nat → Int → Int → Int → List Int
  | 0, _, _, _ => []
  | fuel + 1, stop, step, start =>
    if start < stop then start :: pyRangeUpAux fuel stop step (start + max step 1)
    else []

/-- Fuel-driven descending Python `range`. -/
def pyRangeDownAux : Nat → Int → Int → Int → List Int
  | 0, _, _, _ => []
  | fuel + 1, stop, step, start =>
    if stop < start then start :: pyRangeDownAux fuel stop step (start + min step (-1))
    else []

/-- Python `range(start, stop, step)` for `step ≠ 0` (the `step = 0` raise
is modeled at the call site in `compute_embeddings`). -/
def pyRange (start stop step : Int) : List Int :=
  if 0 < step then pyRangeUpAux (stop - start).toNat stop step start
  else if step < 0 then pyRangeDownAux (start - stop).toNat stop step start
  else []

/-- The batch loop of `compute_embeddings`: for each start index `i`, call
the provider on `texts[i : i + batch_size]`; a provider error aborts the
whole loop.  The second component counts provider requests issued
(including a failing one) — the effect trace of the network calls. -/
def embedLoop (provider : List (List Char) → Except (List Char) (List Embedding))
    (texts : List (List Char)) (batch_size : Int) :
    List Int → Except (List Char) (List Embedding) × Nat
  | [] => (.ok [], 0)
  | i :: rest =>
    let batch := (texts.drop i.toNat).take batch_size.toNat
    match provider batch with
    | .error e => (.error e, 1)
    | .ok vs =>
      match embedLoop provider texts batch_size rest with
      | (.error e, n) => (.error e, n + 1)
      | (.ok more, n) => (.ok (vs ++ more), n + 1)

/-- `compute_embeddings(client, chunks, model_name, batch_size=64)`.  The
provider capability stands for `client.embeddings.create` (the model name
is fixed by the caller's closure); `.error` models a raised exception;
the `Nat` counts provider requests.  `batch_size = 0` makes Python's
`range` raise `ValueError` before any request. -/
def compute_embeddings (provider : List (List Char) → Except (List Char) (List Embedding))
    (chunks : List TextChunk) (batch_size : Int := 64) :
    Except (List Char) (List Embedding) × Nat :=
  let texts := chunks.map (·.text)
  let total : Int := texts.length
  if texts.length = 0 then (.ok [], 0)
  else if batch_size = 0 then (.error "ValueError: range() arg 3 must not be zero".data, 0)
  else embedLoop provider texts batch_size (pyRange 0 total batch_size)

/-! ### knowledge_builder.py -/

/-- A chunk entry of the final store (chunk joined with its embedding). -/
structure KBChunk where
  chunk_id : List Char
  page : Nat
  position : Nat
  text : List Char
  embedding : Embedding
deriving DecidableEq

/-- A document-group of the final store. -/
structure KBDocument where
  doc_id : List Char
  source_path : List Char
  title : List Char
  chunks : List KBChunk
deriving DecidableEq

/-- The `metadata` object. -/
structure KBMetadata where
  created_at : List Char
  model : List Char
  num_documents : Nat
  num_chunks : Nat
deriving DecidableEq

/-- The full `knowledge` JSON structure. -/
structure KnowledgeBase where
  metadata : KBMetadata
  documents : List KBDocument
deriving DecidableEq

/-- `docs_by_id = {doc.doc_id: doc for doc in documents}` followed by
`.get(id)`: on duplicate ids the dict keeps the last occurrence, so look
from the reversed list. -/
def lookupDoc (documents : List PDFDocument) (id : List Char) : Option PDFDocument :=
  documents.reverse.find? (fun d => decide (d.doc_id = id))

/-- The chunk entry appended to a document-group. -/
def mkEntry (c : TextChunk) (e : Embedding) : KBChunk :=
  ⟨c.chunk_id, c.page, c.position, c.text, e⟩

/-- One iteration of the `for chunk, emb in zip(chunks, embeddings)` loop:
drop the pair if its `doc_id` matches no loaded document, otherwise create
the document-group on first sight (in first-seen order, the dict's
insertion order) and append the entry to that group. -/
def addPair (documents : List PDFDocument) (out : List KBDocument)
    (p : TextChunk × Embedding) : List KBDocument :=
  match lookupDoc documents p.1.doc_id with
  | none => out
  | some doc =>
    let out1 :=
      if p.1.doc_id ∈ out.map (·.doc_id) then out
      else out ++ [⟨doc.doc_id, doc.source_path, doc.title, []⟩]
    out1.map (fun g =>
      if g.doc_id = p.1.doc_id then
        ⟨g.doc_id, g.source_path, g.title, g.chunks ++ [mkEntry p.1 p.2]⟩
      else g)

/-- `build_knowledge_vectors(documents, chunks, embeddings, model_name)`.
`created_at` stands for the `datetime.utcnow().isoformat() + "Z"` string,
an input of the embedding since the clock is external.  `.error` models
the raised `ValueError`.  Note `num_chunks` is `len(chunks)` — the raw
input count — while `num_documents` is `len(documents_out)`. -/
def build_knowledge_vectors (documents : List PDFDocument) (chunks : List TextChunk)
    (embeddings : List Embedding) (model_name created_at : List Char) :
    Except (List Char) KnowledgeBase :=
  if chunks.length ≠ embeddings.length then
    .error ("Numero de chunks (".data ++ natDigits chunks.length ++
      ") y embeddings (".data ++ natDigits embeddings.length ++ ") no coincide.".data)
  else
    let documents_out := (chunks.zip embeddings).foldl (addPair documents) []
    .ok ⟨⟨created_at, model_name, documents_out.length, chunks.length⟩, documents_out⟩

/-- Step 4/4 of `app.py`'s indexing run: build the knowledge structure and
then save it.  The second component is the list of knowledge bases written
to disk by `save_knowledge_vectors` (the write trace): the save call is
reached only when the build did not raise. -/
def runBuildStage (documents : List PDFDocument) (chunks : List TextChunk)
    (embeddings : List Embedding) (model_name created_at : List Char) :
    Except (List Char) KnowledgeBase × List KnowledgeBase :=
  match build_knowledge_vectors documents chunks embeddings model_name created_at with
  | .error e => (.error e, [])
  | .ok knowledge => (.ok knowledge, [knowledge])

/-- First-seen order of keys, as a Python dict built by repeated
`documents_out[key] = ...` keeps them; worker with accumulator. -/
def firstSeenAux (acc : List (List Char)) : List (List Char) → List (List Char)
  | [] => acc
  | i :: rest => firstSeenAux (if i ∈ acc then acc else acc ++ [i]) rest

/-- First occurrence order of a key list (deduplicated, order of first
appearance). -/
def firstSeen (l : List (List Char)) : List (List Char) := firstSeenAux [] l

/-- A word as Python's `split()` produces it: non-empty and free of
whitespace characters. -/
def goodWord (w : List Char) : Prop := w ≠ [] ∧ ∀ c ∈ w, c.isWhitespace = false

/-- Invariant of the builder's grouping loop after the pair list `ps` has
been processed into the accumulated groups `out`: the group keys are the
matched pair ids in first-seen order; every group carries the fields of
its (last-wins) looked-up document; and every group's chunk list is the
in-order image of exactly the processed pairs bearing its id. -/
def BuildInv (documents : List PDFDocument) (ps : List (TextChunk × Embedding))
    (out : List KBDocument) : Prop :=
  out.map (·.doc_id) = firstSeen ((ps.filter
      (fun p => (lookupDoc documents p.1.doc_id).isSome)).map (fun p => p.1.doc_id)) ∧
  (∀ g ∈ out, ∃ d, lookupDoc documents g.doc_id = some d ∧
    g.source_path = d.source_path ∧ g.title = d.title) ∧
  (∀ g ∈ out, g.chunks = (ps.filter
      (fun p => decide (p.1.doc_id = g.doc_id))).map (fun p => mkEntry p.1 p.2))

/-! ### Lemmas: Python string primitives -/

theorem pySplitAux_good (cs : List Char) : ∀ (acc : List Char),
    (∀ c ∈ acc, c.isWhitespace = false) → ∀ w ∈ pySplitAux cs acc, goodWord w := by
  induction cs with
  | nil =>
    intro acc hacc w hw
    simp only [pySplitAux] at hw
    split at hw
    · simp at hw
    · next hne =>
      simp only [List.mem_singleton] at hw
      subst hw
      exact ⟨by simpa using hne, fun c hc => hacc c (List.mem_reverse.mp hc)⟩
  | cons c cs ih =>
    intro acc hacc w hw
    simp only [pySplitAux] at hw
    split at hw
    · split at hw
      · exact ih [] (by simp) w hw
      · next hne =>
        rcases List.mem_cons.mp hw with h | h
        · subst h
          exact ⟨by simpa using hne, fun x hx => hacc x (List.mem_reverse.mp hx)⟩
        · exact ih [] (by simp) w h
    · next hc =>
      refine ih (c :: acc) ?_ w hw
      intro x hx
      rcases List.mem_cons.mp hx with h | h
      · subst h; exact Bool.of_not_eq_true hc
      · exact hacc x h

theorem pySplit_good (s : List Char) : ∀ w ∈ pySplit s, goodWord w :=
  pySplitAux_good s [] (by simp)

theorem dropWhile_eq_self_of_head (p : Char → Bool) (l : List Char)
    (h : ∀ a, l.head? = some a → p a = false) : l.dropWhile p = l := by
  cases l with
  | nil => rfl
  | cons a t => simp [List.dropWhile_cons, h a rfl]

theorem head?_dropWhile (p : Char → Bool) (l : List Char) :
    ∀ a, (l.dropWhile p).head? = some a → p a = false := by
  induction l with
  | nil => intro a ha; simp at ha
  | cons c t ih =>
    intro a ha
    rw [List.dropWhile_cons] at ha
    split at ha
    · exact ih a ha
    · next hc =>
      simp only [List.head?_cons, Option.some.injEq] at ha
      subst ha
      exact Bool.of_not_eq_true hc

theorem pyStrip_eq_self (l : List Char)
    (h1 : ∀ a, l.head? = some a → a.isWhitespace = false)
    (h2 : ∀ a, l.getLast? = some a → a.isWhitespace = false) : pyStrip l = l := by
  unfold pyStrip
  rw [dropWhile_eq_self_of_head _ l h1]
  rw [dropWhile_eq_self_of_head _ l.reverse (by
    intro a ha
    rw [List.head?_reverse] at ha
    exact h2 a ha)]
  exact List.reverse_reverse l

theorem head?_append_left {l t : List Char} (h : l ≠ []) :
    (l ++ t).head? = l.head? := by
  cases l with
  | nil => exact absurd rfl h
  | cons a l => simp

theorem joinWords_ne_nil (ws : List (List Char)) (h : ∀ w ∈ ws, w ≠ [])
    (hne : ws ≠ []) : joinWords ws ≠ [] := by
  cases ws with
  | nil => exact absurd rfl hne
  | cons w ws =>
    cases ws with
    | nil =>
      simpa [joinWords] using h w (by simp)
    | cons w' ws' =>
      show w ++ ' ' :: joinWords (w' :: ws') ≠ []
      simp

theorem joinWords_head_mem (ws : List (List Char)) (h : ∀ w ∈ ws, w ≠ []) :
    ∀ a, (joinWords ws).head? = some a → ∃ w, w ∈ ws ∧ a ∈ w := by
  cases ws with
  | nil => intro a ha; simp [joinWords] at ha
  | cons w ws =>
    intro a ha
    have hw : w ≠ [] := h w (by simp)
    have hha : w.head? = some a := by
      cases ws with
      | nil => simpa [joinWords] using ha
      | cons w' ws' =>
        rw [show joinWords (w :: w' :: ws') = w ++ ' ' :: joinWords (w' :: ws') from rfl,
          head?_append_left hw] at ha
        exact ha
    exact ⟨w, by simp, List.mem_of_mem_head? hha⟩

theorem joinWords_getLast_mem (ws : List (List Char)) (h : ∀ w ∈ ws, w ≠ []) :
    ∀ a, (joinWords ws).getLast? = some a → ∃ w, w ∈ ws ∧ a ∈ w := by
  induction ws with
  | nil => intro a ha; simp [joinWords] at ha
  | cons w ws ih =>
    intro a ha
    cases ws with
    | nil =>
      exact ⟨w, by simp, List.mem_of_mem_getLast? (by simpa [joinWords] using ha)⟩
    | cons w' ws' =>
      rw [show joinWords (w :: w' :: ws') = w ++ ' ' :: joinWords (w' :: ws') from rfl,
        List.getLast?_append] at ha
      have hjoin : joinWords (w' :: ws') ≠ [] :=
        joinWords_ne_nil _ (fun x hx => h x (List.mem_cons_of_mem _ hx)) (by simp)
      have : (' ' :: joinWords (w' :: ws')).getLast? = (joinWords (w' :: ws')).getLast? := by
        rw [List.getLast?_cons]
        rcases List.exists_mem_of_ne_nil _ hjoin with ⟨x, _⟩
        cases hlast : (joinWords (w' :: ws')).getLast? with
        | none => exact absurd (List.getLast?_eq_none_iff.mp hlast) hjoin
        | some y => simp
      rw [this] at ha
      cases hlast : (joinWords (w' :: ws')).getLast? with
      | none => exact absurd (List.getLast?_eq_none_iff.mp hlast) hjoin
      | some y =>
        rw [hlast] at ha
        simp only [Option.or_some, Option.some.injEq] at ha
        subst ha
        rcases ih (fun x hx => h x (List.mem_cons_of_mem _ hx)) y hlast with ⟨w₀, hw₀, hyw⟩
        exact ⟨w₀, List.mem_cons_of_mem _ hw₀, hyw⟩

theorem pyStrip_joinWords (ws : List (List Char)) (h : ∀ w ∈ ws, goodWord w) :
    pyStrip (joinWords ws) = joinWords ws := by
  refine pyStrip_eq_self _ ?_ ?_
  · intro a ha
    rcases joinWords_head_mem ws (fun w hw => (h w hw).1) a ha with ⟨w, hw, haw⟩
    exact (h w hw).2 a haw
  · intro a ha
    rcases joinWords_getLast_mem ws (fun w hw => (h w hw).1) a ha with ⟨w, hw, haw⟩
    exact (h w hw).2 a haw

theorem dropWhile_final_segment (p : Char → Bool) (l : List Char) :
    ∃ u, u ++ l.dropWhile p = l := by
  induction l with
  | nil => exact ⟨[], rfl⟩
  | cons a t ih =>
    rw [List.dropWhile_cons]
    split
    · rcases ih with ⟨u, hu⟩
      exact ⟨a :: u, by simp [hu]⟩
    · exact ⟨[], rfl⟩

theorem pyStrip_idem (l : List Char) : pyStrip (pyStrip l) = pyStrip l := by
  by_cases hR : pyStrip l = []
  · rw [hR]; rfl
  · have hB : pyStrip l = ((l.dropWhile Char.isWhitespace).reverse.dropWhile
        Char.isWhitespace).reverse := rfl
    refine pyStrip_eq_self _ ?_ ?_
    · intro a ha
      rcases dropWhile_final_segment Char.isWhitespace
        (l.dropWhile Char.isWhitespace).reverse with ⟨u, hu⟩
      have hA : l.dropWhile Char.isWhitespace = pyStrip l ++ u.reverse := by
        calc l.dropWhile Char.isWhitespace
            = (u ++ (l.dropWhile Char.isWhitespace).reverse.dropWhile
                Char.isWhitespace).reverse := by rw [hu, List.reverse_reverse]
          _ = pyStrip l ++ u.reverse := by rw [List.reverse_append, hB]
      have : (l.dropWhile Char.isWhitespace).head? = some a := by
        rw [hA, head?_append_left hR]; exact ha
      exact head?_dropWhile _ _ a this
    · intro a ha
      rw [hB, List.getLast?_reverse] at ha
      exact head?_dropWhile _ _ a ha

/-! ### Lemmas: decimal rendering -/

theorem digitVal_digitChar (n : Nat) (h : n < 10) : digitVal (digitChar n) = n := by
  interval_cases n <;> rfl

theorem isDigit_digitChar (n : Nat) (h : n < 10) : (digitChar n).isDigit = true := by
  interval_cases n <;> rfl

theorem natVal_append_digit (s : List Char) (c : Char) :
    natVal (s ++ [c]) = natVal s * 10 + digitVal c := by
  simp [natVal, List.foldl_append]

theorem natDigitsAux_spec (fuel : Nat) : ∀ n, n < fuel →
    natVal (natDigitsAux fuel n) = n ∧ natDigitsAux fuel n ≠ [] ∧
      ∀ c ∈ natDigitsAux fuel n, c.isDigit = true := by
  induction fuel with
  | zero => intro n hn; omega
  | succ fuel ih =>
    intro n hn
    by_cases h10 : n < 10
    · refine ⟨?_, ?_, ?_⟩
      · simp [natDigitsAux, h10, natVal, digitVal_digitChar n h10]
      · simp [natDigitsAux, h10]
      · intro c hc
        simp only [natDigitsAux, if_pos h10, List.mem_singleton] at hc
        subst hc
        exact isDigit_digitChar n h10
    · have hdiv : n / 10 < fuel := by
        have := Nat.div_lt_self (by omega : 0 < n) (by omega : 1 < 10)
        omega
      rcases ih (n / 10) hdiv with ⟨hval, hne, hdig⟩
      have hmod : n % 10 < 10 := Nat.mod_lt _ (by omega)
      refine ⟨?_, ?_, ?_⟩
      · rw [natDigitsAux, if_neg h10, natVal_append_digit, hval,
          digitVal_digitChar _ hmod]
        omega
      · simp [natDigitsAux, h10]
      · intro c hc
        rw [natDigitsAux, if_neg h10] at hc
        rcases List.mem_append.mp hc with h | h
        · exact hdig c h
        · rw [List.mem_singleton] at h
          subst h
          exact isDigit_digitChar _ hmod

theorem natVal_natDigits (n : Nat) : natVal (natDigits n) = n :=
  (natDigitsAux_spec (n + 1) n (by omega)).1

theorem natDigits_ne_nil (n : Nat) : natDigits n ≠ [] :=
  (natDigitsAux_spec (n + 1) n (by omega)).2.1

theorem natDigits_isDigit (n : Nat) : ∀ c ∈ natDigits n, c.isDigit = true :=
  (natDigitsAux_spec (n + 1) n (by omega)).2.2

theorem natDigits_inj {m n : Nat} (h : natDigits m = natDigits n) : m = n := by
  have := congrArg natVal h
  rwa [natVal_natDigits, natVal_natDigits] at this

/-! ### Lemmas: chunk id injectivity -/

theorem takeWhile_append_all (p : Char → Bool) (a b : List Char)
    (h : ∀ x ∈ a, p x = true) : (a ++ b).takeWhile p = a ++ b.takeWhile p := by
  induction a with
  | nil => simp
  | cons x t ih =>
    simp only [List.cons_append, List.takeWhile_cons, h x (by simp)]
    rw [ih (fun y hy => h y (List.mem_cons_of_mem _ hy))]
    simp

theorem dropWhile_append_all (p : Char → Bool) (a b : List Char)
    (h : ∀ x ∈ a, p x = true) : (a ++ b).dropWhile p = b.dropWhile p := by
  induction a with
  | nil => simp
  | cons x t ih =>
    simp only [List.cons_append, List.dropWhile_cons, h x (by simp), if_true]
    exact ih (fun y hy => h y (List.mem_cons_of_mem _ hy))

/-- The reversed form of a chunk id. -/
theorem chunkId_reverse (d : List Char) (p c : Nat) :
    (chunkId d p c).reverse =
      (natDigits c).reverse ++ 'c' :: '_' ::
        ((natDigits p).reverse ++ 'p' :: '_' :: d.reverse) := by
  simp [chunkId, List.reverse_append]

/-- `f"{doc_id}_p{page}_c{position}"` is injective: the digit blocks
contain neither `'p'` nor `'c'` markers nor underscores, so the string
parses back uniquely from the right. -/
theorem chunkId_inj {d₁ d₂ : List Char} {p₁ p₂ c₁ c₂ : Nat}
    (h : chunkId d₁ p₁ c₁ = chunkId d₂ p₂ c₂) : d₁ = d₂ ∧ p₁ = p₂ ∧ c₁ = c₂ := by
  have hrev := congrArg List.reverse h
  rw [chunkId_reverse, chunkId_reverse] at hrev
  have hdig : ∀ n : Nat, ∀ x ∈ (natDigits n).reverse, x.isDigit = true := by
    intro n x hx
    exact natDigits_isDigit n x (List.mem_reverse.mp hx)
  have htake := congrArg (List.takeWhile Char.isDigit) hrev
  rw [takeWhile_append_all _ _ _ (hdig c₁), takeWhile_append_all _ _ _ (hdig c₂)] at htake
  simp only [List.takeWhile_cons, show 'c'.isDigit = false from rfl] at htake
  simp only [Bool.false_eq_true, if_false, List.append_nil] at htake
  have hc : c₁ = c₂ := natDigits_inj (List.reverse_injective htake)
  have hdrop := congrArg (List.dropWhile Char.isDigit) hrev
  rw [dropWhile_append_all _ _ _ (hdig c₁), dropWhile_append_all _ _ _ (hdig c₂)] at hdrop
  simp only [List.dropWhile_cons, show 'c'.isDigit = false from rfl] at hdrop
  simp only [Bool.false_eq_true, if_false, List.cons.injEq, true_and] at hdrop
  have hrest := hdrop
  have htake2 := congrArg (List.takeWhile Char.isDigit) hrest
  rw [takeWhile_append_all _ _ _ (hdig p₁), takeWhile_append_all _ _ _ (hdig p₂)] at htake2
  simp only [List.takeWhile_cons, show 'p'.isDigit = false from rfl] at htake2
  simp only [Bool.false_eq_true, if_false, List.append_nil] at htake2
  have hp : p₁ = p₂ := natDigits_inj (List.reverse_injective htake2)
  have hdrop2 := congrArg (List.dropWhile Char.isDigit) hrest
  rw [dropWhile_append_all _ _ _ (hdig p₁), dropWhile_append_all _ _ _ (hdig p₂)] at hdrop2
  simp only [List.dropWhile_cons, show 'p'.isDigit = false from rfl] at hdrop2
  simp only [Bool.false_eq_true, if_false, List.cons.injEq, true_and] at hdrop2
  exact ⟨List.reverse_injective hdrop2, hp, hc⟩

/-! ### Lemmas: the chunker loop -/

/-- Whatever the configuration, every chunk the loop emits for one page
carries that page's document id and page number, its chunk id is the
encoding of its position, and the positions are consecutive from the
starting position. -/
theorem chunkLoop_out (C O : Nat) (d : List Char) (pn : Nat) (ws : List (List Char)) :
    ∀ fuel start pos l, chunkLoop C O d pn ws fuel start pos = some l →
      (∀ c ∈ l, c.doc_id = d ∧ c.page = pn ∧ c.chunk_id = chunkId d pn c.position) ∧
        l.map (·.position) = List.range' pos l.length := by
  intro fuel
  induction fuel with
  | zero => intro start pos l h; exact absurd h (by simp [chunkLoop])
  | succ fuel ih =>
    intro start pos l h
    simp only [chunkLoop] at h
    split at h
    · split at h
      · cases h; simp
      · split at h
        · cases h
          refine ⟨?_, by simp [List.range'_succ]⟩
          intro c hc
          rw [List.mem_singleton] at hc
          subst hc
          exact ⟨rfl, rfl, rfl⟩
        · split at h
          · exact absurd h (by simp)
          · next rest hrest =>
            cases h
            rcases ih _ _ _ hrest with ⟨hall, hpos⟩
            refine ⟨?_, ?_⟩
            · intro c hc
              rcases List.mem_cons.mp hc with hc | hc
              · subst hc; exact ⟨rfl, rfl, rfl⟩
              · exact hall c hc
            · simp only [List.map_cons, hpos, List.length_cons, List.range'_succ]
    · cases h; simp

/-- With `overlap < chunk_size` the start index strictly increases each
iteration, so fuel exceeding the remaining word count is never exhausted. -/
theorem chunkLoop_isSome (C O : Nat) (d : List Char) (pn : Nat) (ws : List (List Char))
    (hO : O < C) : ∀ fuel start pos, ws.length - start < fuel →
      (chunkLoop C O d pn ws fuel start pos).isSome := by
  intro fuel
  induction fuel with
  | zero => intro start pos h; omega
  | succ fuel ih =>
    intro start pos hfuel
    simp only [chunkLoop]
    split
    · next hstart =>
      split
      · simp
      · split
        · simp
        · next hend =>
          have hrec := ih (max 0 (start + C - O)) (pos + 1) (by omega)
          rcases Option.isSome_iff_exists.mp hrec with ⟨rest, hrest⟩
          rw [hrest]
          simp
    · simp

/-- With `overlap = chunk_size` (here both 1) on a two-word page, the
start index never advances: the loop body runs forever, exhausting every
fuel bound. -/
theorem chunkLoop_noFuel : ∀ (fuel pos : Nat),
    chunkLoop 1 1 "d".data 1 ["a".data, "b".data] fuel 0 pos = none := by
  intro fuel
  induction fuel with
  | zero => intro pos; rfl
  | succ fuel ih =>
    intro pos
    simp only [chunkLoop]
    rw [if_pos (by decide), if_neg (by decide), if_neg (by decide)]
    rw [show max 0 (0 + 1 - 1) = 0 from rfl, ih (pos + 1)]

/-- Arithmetic of the chunk count: advancing the window start by
`chunk_size - overlap` lowers the ceiling-division count by exactly one. -/
theorem ceil_div_step (x e : Nat) (he : 1 ≤ e) (hx : 1 ≤ x) :
    (x + e - 1) / e = 1 + (x - e + e - 1) / e := by
  by_cases hxe : e ≤ x
  · have h1 : x - e + e - 1 = x - 1 := by omega
    have h2 : x + e - 1 = x - 1 + e := by omega
    rw [h1, h2, Nat.add_div_right _ (by omega)]
    omega
  · have h1 : x - e + e - 1 = e - 1 := by omega
    have h2 : (x + e - 1) / e = 1 := by
      apply Nat.div_eq_of_lt_le
      · omega
      · omega
    rw [h1, h2, Nat.div_eq_of_lt (show e - 1 < e by omega)]

theorem chunk_count_step (len start C O : Nat) (hO : O < C) (h : start + C < len) :
    (len - start - C + (C - O) - 1) / (C - O) =
      1 + (len - (start + (C - O)) - C + (C - O) - 1) / (C - O) := by
  have h1 : len - (start + (C - O)) - C = (len - start - C) - (C - O) := by omega
  rw [h1]
  exact ceil_div_step (len - start - C) (C - O) (by omega) (by omega)

/-- Full specification of the per-page loop under the forward-progress
precondition `overlap < chunk_size`, for such word lists as `split()`
yields: the loop succeeds, emits exactly
`1 + ceil((len - start - chunk_size) / (chunk_size - overlap))` chunks,
and the j-th emitted chunk (0-based) holds position `pos + j` and the
window of `chunk_size` words starting at word `start + j*(chunk_size -
overlap)` joined by single spaces. -/
theorem chunkLoop_spec (C O : Nat) (d : List Char) (pn : Nat) (ws : List (List Char))
    (hO : O < C) (hws : ∀ w ∈ ws, goodWord w) :
    ∀ fuel start pos, start < ws.length → ws.length - start < fuel →
      ∃ l, chunkLoop C O d pn ws fuel start pos = some l ∧
        l.length = 1 + (ws.length - start - C + (C - O) - 1) / (C - O) ∧
        ∀ j, j < l.length → l.get? j = some ⟨chunkId d pn (pos + j), d, pn, pos + j,
          joinWords ((ws.drop (start + j * (C - O))).take C)⟩ := by
  intro fuel
  induction fuel with
  | zero => intro start pos hstart hfuel; omega
  | succ fuel ih =>
    intro start pos hstart hfuel
    have hfrag_good : ∀ w ∈ (ws.drop start).take C, goodWord w := fun w hw =>
      hws w (List.drop_subset start ws (List.mem_of_mem_take hw))
    have hdrop_ne : ws.drop start ≠ [] := by
      rw [ne_eq, List.drop_eq_nil_iff]
      omega
    have hfrag_ne : (ws.drop start).take C ≠ [] := by
      rw [ne_eq, List.take_eq_nil_iff]
      push_neg
      exact ⟨by omega, hdrop_ne⟩
    have htext : pyStrip (joinWords ((ws.drop start).take C)) =
        joinWords ((ws.drop start).take C) := pyStrip_joinWords _ hfrag_good
    have htext_ne : joinWords ((ws.drop start).take C) ≠ [] :=
      joinWords_ne_nil _ (fun w hw => (hfrag_good w hw).1) hfrag_ne
    simp only [chunkLoop]
    rw [if_pos hstart, if_neg (by rw [htext]; exact htext_ne)]
    by_cases hend : ws.length ≤ start + C
    · rw [if_pos hend]
      refine ⟨_, rfl, ?_, ?_⟩
      · have : ws.length - start - C = 0 := by omega
        rw [List.length_singleton, this, Nat.div_eq_of_lt (by omega)]
      · intro j hj
        rw [List.length_singleton] at hj
        interval_cases j
        simp only [List.get?_eq_getElem?, List.getElem?_cons_zero, Option.some.injEq,
          Nat.zero_mul, Nat.add_zero, htext]
    · rw [if_neg hend]
      have hmax : max 0 (start + C - O) = start + (C - O) := by omega
      rw [hmax]
      rcases ih (start + (C - O)) (pos + 1) (by omega) (by omega) with
        ⟨rest, hrest, hlen, hget⟩
      rw [hrest]
      refine ⟨_, rfl, ?_, ?_⟩
      · rw [List.length_cons, hlen, chunk_count_step ws.length start C O hO (by omega)]
        omega
      · intro j hj
        cases j with
        | zero =>
          simp only [List.get?_eq_getElem?, List.getElem?_cons_zero, Option.some.injEq,
            Nat.zero_mul, Nat.add_zero, htext]
        | succ j =>
          rw [List.length_cons] at hj
          have hj' : j < rest.length := by omega
          have := hget j hj'
          simp only [List.get?_eq_getElem?] at this ⊢
          rw [List.getElem?_cons_succ, this]
          have h1 : pos + 1 + j = pos + (j + 1) := by omega
          have h2 : start + (C - O) + j * (C - O) = start + (j + 1) * (C - O) := by
            rw [Nat.succ_mul]
            omega
          rw [h1, h2]

/-- The per-page chunker at the public entry: for a page whose text
splits into at least one word, under the forward-progress precondition,
it emits the predicted chunk list. -/
theorem chunkPage_spec (C O : Nat) (d : List Char) (pn : Nat) (t : List Char)
    (hO : O < C) (hne : pySplit t ≠ []) :
    ∃ l, chunkPage C O d pn t = some l ∧
      l.length = 1 + ((pySplit t).length - C + (C - O) - 1) / (C - O) ∧
      ∀ j, j < l.length → l.get? j = some ⟨chunkId d pn (1 + j), d, pn, 1 + j,
        joinWords (((pySplit t).drop (j * (C - O))).take C)⟩ := by
  have hlen : 0 < (pySplit t).length := List.length_pos.mpr hne
  rcases chunkLoop_spec C O d pn (pySplit t) hO (pySplit_good t)
      ((pySplit t).length + 1) 0 1 hlen (by omega) with ⟨l, hl, hcount, hget⟩
  refine ⟨l, ?_, ?_, ?_⟩
  · rw [chunkPage, if_neg hne]
    exact hl
  · rw [hcount, Nat.sub_zero]
  · intro j hj
    have := hget j hj
    rwa [Nat.zero_add] at this

/-- Window coverage: with count `L = 1 + ceil((W - C) / e)` the windows
`[k*e, k*e + C)`, `k < L`, cover every index below `W`. -/
theorem coverage_aux (W C e L : Nat) (he : 1 ≤ e) (heC : e ≤ C) (hW : 1 ≤ W)
    (hL : L = 1 + (W - C + e - 1) / e) :
    ∀ i, i < W → ∃ k, k < L ∧ k * e ≤ i ∧ i < k * e + C := by
  intro i hi
  have hdm := Nat.div_add_mod (W - C + e - 1) e
  have hmod : (W - C + e - 1) % e < e := Nat.mod_lt _ (by omega)
  have hpm := Nat.div_add_mod i e
  have hsmod : i % e < e := Nat.mod_lt _ (by omega)
  obtain ⟨q, hq⟩ : ∃ q, q = (W - C + e - 1) / e := ⟨_, rfl⟩
  obtain ⟨r, hr⟩ : ∃ r, r = (W - C + e - 1) % e := ⟨_, rfl⟩
  obtain ⟨p, hp⟩ : ∃ p, p = i / e := ⟨_, rfl⟩
  obtain ⟨s, hs⟩ : ∃ s, s = i % e := ⟨_, rfl⟩
  rw [← hq, ← hr] at hdm
  rw [← hr] at hmod
  rw [← hp, ← hs] at hpm
  rw [← hs] at hsmod
  rw [← hq] at hL
  by_cases hpL : p < L
  · refine ⟨p, hpL, ?_, ?_⟩
    · have h3 : p * e = e * p := Nat.mul_comm p e
      omega
    · have h3 : p * e = e * p := Nat.mul_comm p e
      omega
  · push_neg at hpL
    refine ⟨L - 1, by omega, ?_, ?_⟩
    · have h1 : L * e ≤ p * e := Nat.mul_le_mul_right e hpL
      have h2 : (L - 1) * e ≤ L * e := Nat.mul_le_mul_right e (by omega)
      have h3 : p * e = e * p := Nat.mul_comm p e
      omega
    · have hq1 : L - 1 = q := by omega
      have h3 : q * e = e * q := Nat.mul_comm q e
      rw [hq1]
      omega

/-! ### Lemmas: whole-input chunker runs -/

theorem chunkPage_isSome (C O : Nat) (d : List Char) (pn : Nat) (t : List Char)
    (hO : O < C) : (chunkPage C O d pn t).isSome := by
  rw [chunkPage]
  split
  · simp
  · exact chunkLoop_isSome C O d pn (pySplit t) hO _ 0 1 (by omega)

theorem chunkPages_isSome (C O : Nat) (d : List Char) (pgs : List PDFPage)
    (hO : O < C) : (chunkPages C O d pgs).isSome := by
  induction pgs with
  | nil => simp [chunkPages]
  | cons pg rest ih =>
    rw [chunkPages]
    rcases Option.isSome_iff_exists.mp (chunkPage_isSome C O d pg.page_number pg.text hO)
      with ⟨cks, hcks⟩
    rcases Option.isSome_iff_exists.mp ih with ⟨more, hmore⟩
    rw [hcks, hmore]
    simp

theorem chunkDocs_isSome (C O : Nat) (documents : List PDFDocument)
    (hO : O < C) : (chunkDocs C O documents).isSome := by
  induction documents with
  | nil => simp [chunkDocs]
  | cons doc rest ih =>
    rw [chunkDocs]
    rcases Option.isSome_iff_exists.mp (chunkPages_isSome C O doc.doc_id doc.pages hO)
      with ⟨cks, hcks⟩
    rcases Option.isSome_iff_exists.mp ih with ⟨more, hmore⟩
    rw [hcks, hmore]
    simp

/-! ### Lemmas: distinctness of chunk ids -/

theorem chunkPage_out (C O : Nat) (d : List Char) (pn : Nat) (t : List Char)
    (l : List TextChunk) (h : chunkPage C O d pn t = some l) :
    (∀ c ∈ l, c.doc_id = d ∧ c.page = pn ∧ c.chunk_id = chunkId d pn c.position) ∧
      (l.map (·.position)).Nodup := by
  rw [chunkPage] at h
  split at h
  · cases h
    simp
  · rcases chunkLoop_out C O d pn (pySplit t) _ 0 1 l h with ⟨hall, hpos⟩
    refine ⟨hall, ?_⟩
    rw [hpos]
    exact List.nodup_range' _ _

theorem chunkPages_out (C O : Nat) (d : List Char) (pgs : List PDFPage)
    (l : List TextChunk) (h : chunkPages C O d pgs = some l)
    (hpg : (pgs.map (·.page_number)).Nodup) :
    (∀ c ∈ l, c.doc_id = d ∧ c.chunk_id = chunkId d c.page c.position ∧
      c.page ∈ pgs.map (·.page_number)) ∧
      (l.map (fun c => (c.page, c.position))).Nodup := by
  induction pgs generalizing l with
  | nil =>
    rw [chunkPages] at h
    cases h
    simp
  | cons pg rest ih =>
    rw [chunkPages] at h
    split at h
    · exact absurd h (by simp)
    · next cks hcks =>
      split at h
      · exact absurd h (by simp)
      · next more hmore =>
        cases h
        simp only [List.map_cons, List.nodup_cons] at hpg
        rcases chunkPage_out C O d pg.page_number pg.text cks hcks with ⟨hcall, hcpos⟩
        rcases ih more hmore hpg.2 with ⟨hmall, hmkeys⟩
        have hckeys : cks.map (fun c => (c.page, c.position)) =
            (cks.map (·.position)).map (fun p => (pg.page_number, p)) := by
          rw [List.map_map]
          exact List.map_congr_left (fun c hc => by
            rw [Function.comp_apply, (hcall c hc).2.1])
        refine ⟨?_, ?_⟩
        · intro c hc
          rcases List.mem_append.mp hc with hc | hc
          · rcases hcall c hc with ⟨h1, h2, h3⟩
            exact ⟨h1, h2 ▸ by rw [h3], by simp [h2]⟩
          · rcases hmall c hc with ⟨h1, h2, h3⟩
            exact ⟨h1, h2, by simp [h3]⟩
        · rw [List.map_append, List.nodup_append]
          refine ⟨?_, hmkeys, ?_⟩
          · rw [hckeys]
            exact hcpos.map (fun a b hab => by
              simpa using (Prod.mk.injEq _ _ _ _).mp hab)
          · intro k hk1 hk2
            rw [hckeys] at hk1
            rcases List.mem_map.mp hk1 with ⟨p, _, hp⟩
            rcases List.mem_map.mp hk2 with ⟨c, hc, hck⟩
            have h1 : k.1 = pg.page_number := by rw [← hp]
            have h2 : k.1 ∈ rest.map (·.page_number) := by
              rw [← hck]
              exact (hmall c hc).2.2
            rw [h1] at h2
            exact hpg.1 h2

theorem chunkDocs_out (C O : Nat) (documents : List PDFDocument)
    (l : List TextChunk) (h : chunkDocs C O documents = some l)
    (hids : (documents.map (·.doc_id)).Nodup)
    (hpgs : ∀ doc ∈ documents, (doc.pages.map (·.page_number)).Nodup) :
    (∀ c ∈ l, c.chunk_id = chunkId c.doc_id c.page c.position ∧
      c.doc_id ∈ documents.map (·.doc_id)) ∧
      (l.map (fun c => (c.doc_id, c.page, c.position))).Nodup := by
  induction documents generalizing l with
  | nil =>
    rw [chunkDocs] at h
    cases h
    simp
  | cons doc rest ih =>
    rw [chunkDocs] at h
    split at h
    · exact absurd h (by simp)
    · next cks hcks =>
      split at h
      · exact absurd h (by simp)
      · next more hmore =>
        cases h
        simp only [List.map_cons, List.nodup_cons] at hids
        rcases chunkPages_out C O doc.doc_id doc.pages cks hcks
          (hpgs doc (by simp)) with ⟨hcall, hckeys⟩
        rcases ih more hmore hids.2 (fun x hx => hpgs x (List.mem_cons_of_mem _ hx))
          with ⟨hmall, hmkeys⟩
        have hmap : cks.map (fun c => (c.doc_id, c.page, c.position)) =
            (cks.map (fun c => (c.page, c.position))).map
              (fun k => (doc.doc_id, k)) := by
          rw [List.map_map]
          exact List.map_congr_left (fun c hc => by
            rw [Function.comp_apply, (hcall c hc).1])
        refine ⟨?_, ?_⟩
        · intro c hc
          rcases List.mem_append.mp hc with hc | hc
          · rcases hcall c hc with ⟨h1, h2, _⟩
            exact ⟨h1 ▸ by rw [h2], by simp [h1]⟩
          · rcases hmall c hc with ⟨h1, h2⟩
            exact ⟨h1, by simp [h2]⟩
        · rw [List.map_append, List.nodup_append]
          refine ⟨?_, hmkeys, ?_⟩
          · rw [hmap]
            exact hckeys.map (fun a b hab => by
              simpa using (Prod.mk.injEq _ _ _ _).mp hab)
          · intro k hk1 hk2
            rw [hmap] at hk1
            rcases List.mem_map.mp hk1 with ⟨p, _, hp⟩
            rcases List.mem_map.mp hk2 with ⟨c, hc, hck⟩
            have h1 : k.1 = doc.doc_id := by rw [← hp]
            have h2 : k.1 ∈ rest.map (·.doc_id) := by
              rw [← hck]
              exact (hmall c hc).2
            rw [h1] at h2
            exact hids.1 h2

/-! ### Claim theorems: chunker -/

/-- C2: the claim demands that `overlap ≥ chunk_size` be rejected before
chunking begins, fatal to the run.  The code has no such check: with
`chunk_size = 1`, `overlap = 1` on a two-word page the per-page `while`
loop's start index never advances, so the loop never terminates — the
loop exhausts every fuel bound (first conjunct), hence the whole
`chunk_documents` run diverges instead of rejecting (second conjunct). -/
theorem claim_C2_no_overlap_rejection :
    (∀ fuel pos : Nat, chunkLoop 1 1 "d".data 1 ["a".data, "b".data] fuel 0 pos = none) ∧
      chunk_documents [⟨"d".data, "d".data, "d".data, [⟨1, "a b".data⟩]⟩] 1 1 = none :=
  ⟨chunkLoop_noFuel, rfl⟩

/-- C9: whenever `chunk_size ≥ 1` and `overlap < chunk_size`,
`chunk_documents` terminates on every finite document list: the start
index gains `chunk_size - overlap ≥ 1` each iteration, so the per-page
loop ends within its word count and the canonical fuel is never
exhausted. -/
theorem claim_C9_chunker_terminates (documents : List PDFDocument) (C O : Nat)
    (hC : 1 ≤ C) (hO : O < C) : (chunk_documents documents C O).isSome :=
  chunkDocs_isSome C O documents hO

/-- C3: for a page of `W ≥ 1` words with `chunk_size C ≥ 1` and
`0 ≤ O < C`, the chunker emits exactly `1 + ceil(max(0, W-C)/(C-O))`
chunks for that page (in Nat arithmetic, `1 + (W - C + (C-O) - 1)/(C-O)`,
where the truncated subtraction is the `max(0, ·)`); the k-th chunk
(1-based, position `k`) is `words[(k-1)*(C-O) : (k-1)*(C-O)+C]` joined by
single spaces (the slice is clamped at `W`); and the chunk windows cover
every word index below `W` with no gaps. -/
theorem claim_C3_page_chunk_formula (C O W : Nat) (d ttl sp : List Char) (pn : Nat)
    (t : List Char) (hC : 1 ≤ C) (hO : O < C) (hW : (pySplit t).length = W)
    (hW1 : 1 ≤ W) :
    ∃ l, chunkPage C O d pn t = some l ∧
      chunk_documents [⟨d, ttl, sp, [⟨pn, t⟩]⟩] C O = some l ∧
      l.length = 1 + (W - C + (C - O) - 1) / (C - O) ∧
      (∀ k, 1 ≤ k → k ≤ l.length → l.get? (k - 1) =
        some ⟨chunkId d pn k, d, pn, k,
          joinWords (((pySplit t).drop ((k - 1) * (C - O))).take C)⟩) ∧
      (∀ i, i < W → ∃ k, k < l.length ∧ k * (C - O) ≤ i ∧ i < k * (C - O) + C) := by
  have hne : pySplit t ≠ [] := by
    intro h
    rw [h] at hW
    simp at hW
    omega
  rcases chunkPage_spec C O d pn t hO hne with ⟨l, hl, hlen, hget⟩
  rw [hW] at hlen
  refine ⟨l, hl, ?_, hlen, ?_, ?_⟩
  · show chunkDocs C O [⟨d, ttl, sp, [⟨pn, t⟩]⟩] = some l
    simp [chunkDocs, chunkPages, hl]
  · intro k hk1 hk2
    have h := hget (k - 1) (by omega)
    rw [show 1 + (k - 1) = k from by omega] at h
    exact h
  · exact fun i hi => coverage_aux W C (C - O) l.length (by omega) (by omega) hW1 hlen i hi

theorem claim_C3_page_chunk_formula_witness :
    (chunkPage 2 1 "d".data 1 "a b c".data).map List.length = some 2 := by
  rcases claim_C3_page_chunk_formula 2 1 3 "d".data "d".data "d".data 1 "a b c".data
      (by norm_num) (by norm_num) (by decide) (by norm_num) with ⟨l, hl, _, hlen, _, _⟩
  rw [hl]
  simp only [Option.map]
  rw [hlen]

/-- C8 (amended): if all `doc_id`s are pairwise distinct AND page numbers
are pairwise distinct within each document (as the loader guarantees),
the chunk ids `chunk_documents` produces are globally pairwise distinct:
the encoding `doc_id ++ "_p" ++ page ++ "_c" ++ position` is injective,
positions increase strictly within a page and pages/documents are told
apart by their components.  (Without the page-number hypothesis the
original claim fails: see the counterexample.) -/
theorem claim_C8_chunk_ids_unique (documents : List PDFDocument) (C O : Nat)
    (l : List TextChunk) (hids : (documents.map (·.doc_id)).Nodup)
    (hpgs : ∀ doc ∈ documents, (doc.pages.map (·.page_number)).Nodup)
    (h : chunk_documents documents C O = some l) :
    (l.map (·.chunk_id)).Nodup := by
  rcases chunkDocs_out C O documents l h hids hpgs with ⟨hall, hkeys⟩
  have hmap : l.map (·.chunk_id) =
      (l.map (fun c => (c.doc_id, c.page, c.position))).map
        (fun k => chunkId k.1 k.2.1 k.2.2) := by
    rw [List.map_map]
    exact List.map_congr_left (fun c hc => by
      rw [Function.comp_apply]
      exact (hall c hc).1)
  rw [hmap]
  refine hkeys.map ?_
  intro a b hab
  obtain ⟨a1, a2, a3⟩ := a
  obtain ⟨b1, b2, b3⟩ := b
  rcases chunkId_inj hab with ⟨h1, h2, h3⟩
  simp only [] at h1 h2 h3
  simp [h1, h2, h3]

theorem claim_C8_chunk_ids_unique_witness :
    (([⟨"a_p1_c1".data, "a".data, 1, 1, "x y".data⟩,
        ⟨"a_p1_c2".data, "a".data, 1, 2, "z".data⟩] : List TextChunk).map
      (·.chunk_id)).Nodup :=
  claim_C8_chunk_ids_unique [⟨"a".data, "a".data, "a".data, [⟨1, "x y z".data⟩]⟩] 2 0
    _ (by decide) (by decide) (by decide)

/-- C8, the claim as stated is false: with distinct `doc_id`s but a
repeated page number inside one document, two chunks get the same chunk
id `"d_p1_c1"`. -/
theorem claim_C8_counterexample :
    (chunk_documents [⟨"d".data, "d".data, "d".data,
        [⟨1, "a".data⟩, ⟨1, "b".data⟩]⟩] 800 200).map
      (fun l => decide ((l.map (·.chunk_id)).Nodup)) = some false := by
  decide

theorem claim_C9_chunker_terminates_witness :
    (chunk_documents [⟨"a".data, "a".data, "a".data, [⟨1, "u v w".data⟩]⟩] 2 1).isSome :=
  claim_C9_chunker_terminates [⟨"a".data, "a".data, "a".data, [⟨1, "u v w".data⟩]⟩] 2 1
    (by norm_num) (by norm_num)

/-! ### Lemmas: the embedding batch loop -/

/-- Consecutive slices of width `bs` starting at every index the
ascending range yields, concatenated, give back the tail of `texts` from
the starting index. -/
theorem embed_batches_flatten (texts : List (List Char)) (bs : Int) (hbs : 1 ≤ bs) :
    ∀ (fuel : Nat) (start : Int), 0 ≤ start →
      ((texts.length : Int) - start).toNat ≤ fuel →
      ((pyRangeUpAux fuel (texts.length : Int) bs start).map
        (fun i => (texts.drop i.toNat).take bs.toNat)).flatten = texts.drop start.toNat := by
  intro fuel
  induction fuel with
  | zero =>
    intro start h0 hfuel
    have h1 : texts.length ≤ start.toNat := by omega
    rw [pyRangeUpAux, List.map_nil, List.flatten_nil,
      Eq.comm, List.drop_eq_nil_iff]
    exact h1
  | succ fuel ih =>
    intro start h0 hfuel
    rw [pyRangeUpAux]
    split
    · next hlt =>
      rw [show max bs 1 = bs from by omega]
      rw [List.map_cons, List.flatten_cons, ih (start + bs) (by omega) (by omega)]
      have h2 : (start + bs).toNat = start.toNat + bs.toNat := by omega
      rw [h2, ← List.drop_drop, List.take_append_drop]
    · next hge =>
      rw [List.map_nil, List.flatten_nil, Eq.comm, List.drop_eq_nil_iff]
      omega

/-- The batch loop either stops at the first provider error, or returns
the vectors of all its batches concatenated in order, one provider
request per batch, when the provider maps each text to `g` of it. -/
theorem embedLoop_out (f : List (List Char) → Except (List Char) (List Embedding))
    (g : List Char → Embedding) (hf : ∀ b vs, f b = .ok vs → vs = b.map g)
    (texts : List (List Char)) (bs : Int) :
    ∀ idxs : List Int,
      (∃ e n, embedLoop f texts bs idxs = (.error e, n)) ∨
      embedLoop f texts bs idxs =
        (.ok (((idxs.map (fun i => (texts.drop i.toNat).take bs.toNat)).flatten).map g),
          idxs.length) := by
  intro idxs
  induction idxs with
  | nil =>
    right
    simp [embedLoop]
  | cons i rest ih =>
    cases hfb : f ((texts.drop i.toNat).take bs.toNat) with
    | error e => exact .inl ⟨e, 1, by rw [embedLoop, hfb]⟩
    | ok vs =>
      have hvs := hf _ _ hfb
      rcases ih with ⟨e, n, hrec⟩ | hrec
      · exact .inl ⟨e, n + 1, by rw [embedLoop, hfb, hrec]⟩
      · right
        rw [embedLoop, hfb, hrec, hvs]
        simp

/-! ### Claim theorems: embeddings engine -/

/-- C4: with a positive batch size (the default is 64) and a provider
that returns one vector per input text, in input order, within each
batch, `compute_embeddings` is all-or-nothing: it either raises (the
error propagates, first component `.error`) or returns exactly one
embedding per chunk, in chunk order; and for zero input chunks it
returns the empty list having issued no provider request. -/
theorem claim_C4_embed_all_or_nothing
    (f : List (List Char) → Except (List Char) (List Embedding))
    (g : List Char → Embedding) (chunks : List TextChunk) (bs : Int)
    (hbs : 1 ≤ bs) (hf : ∀ b vs, f b = .ok vs → vs = b.map g) :
    ((∃ e, (compute_embeddings f chunks bs).1 = .error e) ∨
      ((compute_embeddings f chunks bs).1 = .ok ((chunks.map (·.text)).map g) ∧
        ((chunks.map (·.text)).map g).length = chunks.length)) ∧
      compute_embeddings f ([] : List TextChunk) bs = (.ok [], 0) := by
  refine ⟨?_, rfl⟩
  by_cases hN : chunks = []
  · subst hN
    right
    exact ⟨rfl, rfl⟩
  · have hlen : (chunks.map (·.text)).length ≠ 0 := by
      simpa using hN
    rw [compute_embeddings]
    simp only [if_neg hlen, if_neg (show ¬ bs = 0 from by omega)]
    rw [pyRange, if_pos (show (0:Int) < bs from by omega)]
    rcases embedLoop_out f g hf (chunks.map (·.text)) bs
        (pyRangeUpAux ((chunks.map (·.text)).length - 0 : Int).toNat
          ((chunks.map (·.text)).length : Int) bs 0) with ⟨e, n, h⟩ | h
    · exact .inl ⟨e, by rw [h]⟩
    · right
      rw [h]
      rw [embed_batches_flatten (chunks.map (·.text)) bs hbs _ 0 (by omega) (by omega)]
      simp

theorem claim_C4_embed_all_or_nothing_witness :
    ((compute_embeddings (fun b => .ok (b.map (fun _ => [(1 : Rat)])))
        [⟨"i".data, "d".data, 1, 1, "t".data⟩] 64).1 = .ok [[(1 : Rat)]]) ∧
      compute_embeddings (fun b => .ok (b.map (fun _ => [(1 : Rat)])))
        ([] : List TextChunk) 64 = (.ok [], 0) := by
  have h := claim_C4_embed_all_or_nothing
    (fun b => .ok (b.map (fun _ => [(1 : Rat)]))) (fun _ => [(1 : Rat)])
    [⟨"i".data, "d".data, 1, 1, "t".data⟩] 64 (by norm_num)
    (fun b vs hok => by injection hok with h2; exact h2.symm)
  refine ⟨?_, h.2⟩
  rcases h.1 with ⟨e, he⟩ | ⟨hok, _⟩
  · rw [show (compute_embeddings (fun b => .ok (b.map (fun _ => [(1 : Rat)])))
        [⟨"i".data, "d".data, 1, 1, "t".data⟩] 64).1 = .ok [[(1 : Rat)]] from rfl] at he
    exact Except.noConfusion he
  · exact hok.trans rfl

/-- C10: for a non-empty chunk list and a negative batch size, Python's
`range(0, total, batch_size)` is empty, so `compute_embeddings` returns
the empty embedding list without any provider request and without
raising — zero embeddings for `N > 0` chunks. -/
theorem claim_C10_negative_batch_size
    (f : List (List Char) → Except (List Char) (List Embedding))
    (chunks : List TextChunk) (bs : Int) (hne : chunks ≠ []) (hbs : bs < 0) :
    compute_embeddings f chunks bs = (.ok [], 0) := by
  have hlen : (chunks.map (·.text)).length ≠ 0 := by simpa using hne
  rw [compute_embeddings]
  simp only [if_neg hlen, if_neg (show ¬ bs = 0 from by omega)]
  rw [pyRange, if_neg (show ¬ (0:Int) < bs from by omega), if_pos hbs]
  have h0 : ((0 : Int) - ((chunks.map (·.text)).length : Int)).toNat = 0 := by omega
  rw [h0]
  rfl

theorem claim_C10_negative_batch_size_witness :
    compute_embeddings (fun _ => .error "boom".data)
      [⟨"i".data, "d".data, 1, 1, "t".data⟩] (-3) = (.ok [], 0) :=
  claim_C10_negative_batch_size (fun _ => .error "boom".data)
    [⟨"i".data, "d".data, 1, 1, "t".data⟩] (-3) (by simp) (by norm_num)

/-! ### Claim theorems: knowledge builder, counts and length check -/

/-- C1 (amended): in every successfully built knowledge base,
`metadata.num_documents` equals the number of document-groups assembled
into `documents` — but `metadata.num_chunks` equals the length of the
raw input chunk list (`len(chunks)` in the source), which coincides with
the grouped total only when no chunk/embedding pair was dropped.  The
original claim (`num_chunks` = grouped count even when pairs are
dropped) is refuted by the counterexample. -/
theorem claim_C1_metadata_counts (documents : List PDFDocument)
    (chunks : List TextChunk) (embeddings : List Embedding)
    (mn ts : List Char) (kb : KnowledgeBase)
    (h : build_knowledge_vectors documents chunks embeddings mn ts = .ok kb) :
    kb.metadata.num_documents = kb.documents.length ∧
      kb.metadata.num_chunks = chunks.length := by
  rw [build_knowledge_vectors] at h
  split at h
  · exact absurd h (by simp)
  · cases h
    exact ⟨rfl, rfl⟩

theorem claim_C1_metadata_counts_witness :
    (⟨⟨"ts".data, "m".data, 0, 1⟩, []⟩ : KnowledgeBase).metadata.num_documents =
        (⟨⟨"ts".data, "m".data, 0, 1⟩, []⟩ : KnowledgeBase).documents.length ∧
      (⟨⟨"ts".data, "m".data, 0, 1⟩, []⟩ : KnowledgeBase).metadata.num_chunks =
        [(⟨"c".data, "d".data, 1, 1, "t".data⟩ : TextChunk)].length :=
  claim_C1_metadata_counts [] [⟨"c".data, "d".data, 1, 1, "t".data⟩] [[(1 : Rat)]]
    "m".data "ts".data ⟨⟨"ts".data, "m".data, 0, 1⟩, []⟩ (by rfl)

/-- C1, the claim as stated is false: with no loaded documents and one
chunk/embedding pair (which is dropped), the built metadata records
`num_chunks = 1` (the raw input count) while the grouped total is `0`. -/
theorem claim_C1_counterexample :
    (build_knowledge_vectors [] [⟨"c".data, "d".data, 1, 1, "t".data⟩]
        [[(1 : Rat)]] "m".data "ts".data).toOption.map
      (fun kb => (kb.metadata.num_chunks,
        (kb.documents.map (fun g => g.chunks.length)).sum)) = some (1, 0) := by
  rfl

/-- C5: building from chunk and embedding lists of unequal length always
fails with the validation error, whatever the lists hold; no
`KnowledgeBase` is produced and the save step is never reached (the
write trace stays empty). -/
theorem claim_C5_length_mismatch (documents : List PDFDocument)
    (chunks : List TextChunk) (embeddings : List Embedding) (mn ts : List Char)
    (h : chunks.length ≠ embeddings.length) :
    ∃ e, runBuildStage documents chunks embeddings mn ts = (.error e, []) := by
  have hb : build_knowledge_vectors documents chunks embeddings mn ts =
      .error ("Numero de chunks (".data ++ natDigits chunks.length ++
        ") y embeddings (".data ++ natDigits embeddings.length ++
        ") no coincide.".data) := by
    rw [build_knowledge_vectors, if_pos h]
  exact ⟨_, by rw [runBuildStage, hb]⟩

theorem claim_C5_length_mismatch_witness :
    ∃ e, runBuildStage [] [⟨"c".data, "d".data, 1, 1, "t".data⟩] []
      "m".data "ts".data = (.error e, []) :=
  claim_C5_length_mismatch [] [⟨"c".data, "d".data, 1, 1, "t".data⟩] []
    "m".data "ts".data (by simp)

/-! ### Lemmas: the builder's grouping loop -/

theorem lookupDoc_some {documents : List PDFDocument} {id : List Char}
    {d : PDFDocument} (h : lookupDoc documents id = some d) :
    d.doc_id = id ∧ d ∈ documents := by
  rw [lookupDoc] at h
  have h1 := List.find?_some h
  simp only [decide_eq_true_eq] at h1
  exact ⟨h1, List.mem_reverse.mp (List.mem_of_find?_eq_some h)⟩

theorem addPair_none (documents : List PDFDocument) (out : List KBDocument)
    (p : TextChunk × Embedding) (h : lookupDoc documents p.1.doc_id = none) :
    addPair documents out p = out := by
  rw [addPair, h]

theorem addPair_some (documents : List PDFDocument) (out : List KBDocument)
    (p : TextChunk × Embedding) (doc : PDFDocument)
    (h : lookupDoc documents p.1.doc_id = some doc) :
    addPair documents out p =
      (if p.1.doc_id ∈ out.map (·.doc_id) then out
        else out ++ [⟨doc.doc_id, doc.source_path, doc.title, []⟩]).map
        (fun g => if g.doc_id = p.1.doc_id then
          ⟨g.doc_id, g.source_path, g.title, g.chunks ++ [mkEntry p.1 p.2]⟩
        else g) := by
  rw [addPair, h]

theorem mem_firstSeenAux (l : List (List Char)) :
    ∀ acc a, a ∈ firstSeenAux acc l ↔ a ∈ acc ∨ a ∈ l := by
  induction l with
  | nil => intro acc a; simp [firstSeenAux]
  | cons i rest ih =>
    intro acc a
    rw [firstSeenAux, ih]
    by_cases hi : i ∈ acc
    · rw [if_pos hi]
      constructor
      · rintro (h | h)
        · exact .inl h
        · exact .inr (List.mem_cons_of_mem _ h)
      · rintro (h | h)
        · exact .inl h
        · rcases List.mem_cons.mp h with h | h
          · exact .inl (h ▸ hi)
          · exact .inr h
    · rw [if_neg hi]
      simp only [List.mem_append, List.mem_singleton, List.mem_cons]
      tauto

theorem mem_firstSeen (l : List (List Char)) (a : List Char) :
    a ∈ firstSeen l ↔ a ∈ l := by
  rw [firstSeen, mem_firstSeenAux]
  simp

theorem nodup_firstSeenAux (l : List (List Char)) :
    ∀ acc, acc.Nodup → (firstSeenAux acc l).Nodup := by
  induction l with
  | nil => intro acc h; exact h
  | cons i rest ih =>
    intro acc h
    rw [firstSeenAux]
    split
    · exact ih acc h
    · next hi =>
      refine ih _ (List.nodup_append.mpr ⟨h, List.nodup_singleton i, ?_⟩)
      intro a ha hb
      rw [List.mem_singleton] at hb
      exact hi (hb ▸ ha)

theorem nodup_firstSeen (l : List (List Char)) : (firstSeen l).Nodup :=
  nodup_firstSeenAux l [] List.nodup_nil

theorem firstSeenAux_append_one (x : List Char) (l : List (List Char)) :
    ∀ acc, firstSeenAux acc (l ++ [x]) =
      if x ∈ firstSeenAux acc l then firstSeenAux acc l
      else firstSeenAux acc l ++ [x] := by
  induction l with
  | nil => intro acc; rfl
  | cons i rest ih =>
    intro acc
    rw [List.cons_append, firstSeenAux, ih]
    rw [show firstSeenAux acc (i :: rest) =
      firstSeenAux (if i ∈ acc then acc else acc ++ [i]) rest from rfl]

theorem firstSeen_append_one (l : List (List Char)) (x : List Char) :
    firstSeen (l ++ [x]) =
      if x ∈ firstSeen l then firstSeen l else firstSeen l ++ [x] :=
  firstSeenAux_append_one x l []

theorem filter_map_fst {α β γ : Type} (ps : List (α × β)) (q : α → Bool) (f : α → γ) :
    (ps.filter (fun p => q p.1)).map (fun p => f p.1) =
      ((ps.map Prod.fst).filter q).map f := by
  induction ps with
  | nil => rfl
  | cons p rest ih =>
    rw [List.map_cons, List.filter_cons, List.filter_cons]
    cases hq : q p.1 <;> simp [hq, ih]

theorem addPair_inv (documents : List PDFDocument)
    (ps : List (TextChunk × Embedding)) (out : List KBDocument)
    (p : TextChunk × Embedding) (h : BuildInv documents ps out) :
    BuildInv documents (ps ++ [p]) (addPair documents out p) := by
  obtain ⟨hA, hB, hC⟩ := h
  cases hlook : lookupDoc documents p.1.doc_id with
  | none =>
    rw [addPair_none documents out p hlook]
    refine ⟨?_, hB, ?_⟩
    · rw [hA, List.filter_append]
      rw [show List.filter (fun q => (lookupDoc documents q.1.doc_id).isSome) [p] = []
        from by simp [List.filter_cons, hlook]]
      rw [List.append_nil]
    · intro g hg
      have hne : ¬ p.1.doc_id = g.doc_id := by
        rcases hB g hg with ⟨d, hd, _⟩
        intro hEq
        rw [hEq, hd] at hlook
        exact Option.noConfusion hlook
      rw [hC g hg, List.filter_append]
      rw [show List.filter (fun q => decide (q.1.doc_id = g.doc_id)) [p] = []
        from by simp [List.filter_cons, hne]]
      rw [List.append_nil]
  | some doc =>
    have hdoc := lookupDoc_some hlook
    rw [addPair_some documents out p doc hlook]
    have hfilter_one : List.filter
        (fun q => (lookupDoc documents q.1.doc_id).isSome) [p] = [p] := by
      simp [List.filter_cons, hlook]
    by_cases hkey : p.1.doc_id ∈ out.map (·.doc_id)
    · rw [if_pos hkey]
      refine ⟨?_, ?_, ?_⟩
      · have hid : (out.map (fun g =>
            if g.doc_id = p.1.doc_id then
              (⟨g.doc_id, g.source_path, g.title,
                g.chunks ++ [mkEntry p.1 p.2]⟩ : KBDocument)
            else g)).map (·.doc_id) = out.map (·.doc_id) := by
          rw [List.map_map]
          exact List.map_congr_left (fun g _ => by
            rw [Function.comp_apply]
            split <;> rfl)
        rw [hid, List.filter_append, hfilter_one]
        rw [List.map_append, List.map_singleton, firstSeen_append_one]
        rw [if_pos (by rw [← hA]; exact hkey)]
        exact hA
      · intro g' hg'
        rcases List.mem_map.mp hg' with ⟨g, hg, hup⟩
        rcases hB g hg with ⟨d, hd, hsp, hti⟩
        subst hup
        split
        · next hgid =>
          refine ⟨d, ?_, hsp, hti⟩
          rw [show (⟨g.doc_id, g.source_path, g.title,
            g.chunks ++ [mkEntry p.1 p.2]⟩ : KBDocument).doc_id = g.doc_id from rfl]
          exact hd
        · exact ⟨d, hd, hsp, hti⟩
      · intro g' hg'
        rcases List.mem_map.mp hg' with ⟨g, hg, hup⟩
        subst hup
        split
        · next hgid =>
          rw [show (⟨g.doc_id, g.source_path, g.title,
              g.chunks ++ [mkEntry p.1 p.2]⟩ : KBDocument).chunks =
            g.chunks ++ [mkEntry p.1 p.2] from rfl]
          rw [show (⟨g.doc_id, g.source_path, g.title,
              g.chunks ++ [mkEntry p.1 p.2]⟩ : KBDocument).doc_id = g.doc_id from rfl]
          rw [List.filter_append]
          rw [show List.filter (fun q => decide (q.1.doc_id = g.doc_id)) [p] = [p]
            from by simp [List.filter_cons, hgid.symm]]
          rw [List.map_append, List.map_singleton]
          rw [hC g hg]
        · next hgid =>
          rw [List.filter_append]
          rw [show List.filter (fun q => decide (q.1.doc_id = g.doc_id)) [p] = []
            from by
              simp only [List.filter_cons, decide_eq_true_eq]
              rw [if_neg (fun hEq => hgid hEq.symm)]
              rfl]
          rw [List.append_nil]
          exact hC g hg
    · rw [if_neg hkey]
      have hfilter_ps : ps.filter (fun q => decide (q.1.doc_id = p.1.doc_id)) = [] := by
        rw [List.filter_eq_nil_iff]
        intro q hq hqp
        rw [decide_eq_true_eq] at hqp
        apply hkey
        rw [hA, mem_firstSeen]
        refine List.mem_map.mpr ⟨q, List.mem_filter.mpr ⟨hq, ?_⟩, hqp⟩
        rw [hqp, hlook]
        rfl
      have hmap_out : out.map (fun g =>
          if g.doc_id = p.1.doc_id then
            (⟨g.doc_id, g.source_path, g.title,
              g.chunks ++ [mkEntry p.1 p.2]⟩ : KBDocument)
          else g) = out := by
        refine (List.map_congr_left (fun g hg => ?_)).trans (List.map_id out)
        rw [if_neg (fun hEq => hkey (List.mem_map.mpr ⟨g, hg, hEq⟩))]
        rfl
      have hnewid : ((⟨doc.doc_id, doc.source_path, doc.title,
          [] ++ [mkEntry p.1 p.2]⟩ : KBDocument)).doc_id = p.1.doc_id := hdoc.1
      rw [List.map_append, hmap_out, List.map_singleton, if_pos hdoc.1]
      refine ⟨?_, ?_, ?_⟩
      · rw [List.map_append, List.map_singleton, List.filter_append, hfilter_one]
        rw [List.map_append, List.map_singleton, firstSeen_append_one]
        rw [if_neg (by rw [← hA]; exact hkey)]
        rw [hA, hnewid]
      · intro g hg
        rcases List.mem_append.mp hg with hg | hg
        · exact hB g hg
        · rw [List.mem_singleton] at hg
          subst hg
          refine ⟨doc, ?_, rfl, rfl⟩
          rw [hnewid]
          exact hlook
      · intro g hg
        rcases List.mem_append.mp hg with hg | hg
        · have hgne : ¬ p.1.doc_id = g.doc_id :=
            fun hEq => hkey (List.mem_map.mpr ⟨g, hg, hEq.symm⟩)
          rw [List.filter_append]
          rw [show List.filter (fun q => decide (q.1.doc_id = g.doc_id)) [p] = []
            from by simp [List.filter_cons, hgne]]
          rw [List.append_nil]
          exact hC g hg
        · rw [List.mem_singleton] at hg
          subst hg
          rw [show (⟨doc.doc_id, doc.source_path, doc.title,
            [] ++ [mkEntry p.1 p.2]⟩ : KBDocument).chunks = [mkEntry p.1 p.2] from rfl]
          rw [List.filter_append, hnewid, hfilter_ps]
          rw [show List.filter (fun q => decide (q.1.doc_id = p.1.doc_id)) [p] = [p]
            from by simp [List.filter_cons]]
          rfl

theorem buildFold_inv (documents : List PDFDocument)
    (rs : List (TextChunk × Embedding)) :
    ∀ ps out, BuildInv documents ps out →
      BuildInv documents (ps ++ rs) (rs.foldl (addPair documents) out) := by
  induction rs with
  | nil =>
    intro ps out h
    simpa using h
  | cons r rest ih =>
    intro ps out h
    rw [List.foldl_cons]
    have h2 := ih (ps ++ [r]) (addPair documents out r)
      (addPair_inv documents ps out r h)
    rwa [List.append_assoc] at h2

/-! ### Claim theorems: knowledge builder, grouping invariants -/

/-- C7: building from equal-length lists never raises; in the result,
the document-group ids are pairwise distinct (each chunk entry belongs
to exactly one group) and each matches a Document of the input list;
groups appear in first-seen order of the matched chunk ids (pairs whose
id matches no loaded Document are silently dropped); and each group's
chunk list is exactly the in-order sequence of input pairs bearing its
id, so the relative input order is preserved within every group. -/
theorem claim_C7_document_grouping (documents : List PDFDocument)
    (chunks : List TextChunk) (embeddings : List Embedding) (mn ts : List Char)
    (hlen : chunks.length = embeddings.length) :
    ∃ kb, build_knowledge_vectors documents chunks embeddings mn ts = .ok kb ∧
      (kb.documents.map (·.doc_id)).Nodup ∧
      (∀ g ∈ kb.documents, ∃ d ∈ documents, d.doc_id = g.doc_id) ∧
      kb.documents.map (·.doc_id) = firstSeen ((chunks.filter
        (fun c => (lookupDoc documents c.doc_id).isSome)).map (·.doc_id)) ∧
      (∀ g ∈ kb.documents, g.chunks = ((chunks.zip embeddings).filter
        (fun p => decide (p.1.doc_id = g.doc_id))).map (fun p => mkEntry p.1 p.2)) := by
  have hinv := buildFold_inv documents (chunks.zip embeddings) [] []
    ⟨rfl, by simp, by simp⟩
  rw [List.nil_append] at hinv
  obtain ⟨hA, hB, hC⟩ := hinv
  have hA' : ((chunks.zip embeddings).foldl (addPair documents) []).map (·.doc_id) =
      firstSeen ((chunks.filter (fun c => (lookupDoc documents c.doc_id).isSome)).map
        (·.doc_id)) := by
    rw [hA]
    congr 1
    rw [show (fun p : TextChunk × Embedding => p.1.doc_id) =
      (fun p : TextChunk × Embedding => (fun c : TextChunk => c.doc_id) p.1) from rfl]
    rw [show (fun p : TextChunk × Embedding => (lookupDoc documents p.1.doc_id).isSome) =
      (fun p : TextChunk × Embedding =>
        (fun c : TextChunk => (lookupDoc documents c.doc_id).isSome) p.1) from rfl]
    rw [filter_map_fst (chunks.zip embeddings)
      (fun c : TextChunk => (lookupDoc documents c.doc_id).isSome)
      (fun c : TextChunk => c.doc_id)]
    rw [List.map_fst_zip chunks embeddings (by omega)]
  refine ⟨⟨⟨ts, mn, ((chunks.zip embeddings).foldl (addPair documents) []).length,
    chunks.length⟩, (chunks.zip embeddings).foldl (addPair documents) []⟩,
    ?_, ?_, ?_, hA', hC⟩
  · rw [build_knowledge_vectors, if_neg (by omega)]
  · have hnd : (((chunks.zip embeddings).foldl (addPair documents) []).map
        (·.doc_id)).Nodup := by
      rw [hA']
      exact nodup_firstSeen _
    exact hnd
  · intro g hg
    rcases hB g hg with ⟨d, hd, _, _⟩
    rcases lookupDoc_some hd with ⟨hid, hmem⟩
    exact ⟨d, hmem, hid⟩

theorem claim_C7_document_grouping_witness :
    (build_knowledge_vectors [⟨"a".data, "a".data, "pa".data, [⟨1, "x".data⟩]⟩]
        [⟨"a_p1_c1".data, "a".data, 1, 1, "x".data⟩,
          ⟨"zz_p1_c1".data, "zz".data, 1, 1, "y".data⟩]
        [[(1 : Rat)], [(2 : Rat)]] "m".data "ts".data).toOption.map
      (fun kb => kb.documents.map (fun g => g.doc_id)) = some ["a".data] := by
  rcases claim_C7_document_grouping [⟨"a".data, "a".data, "pa".data, [⟨1, "x".data⟩]⟩]
      [⟨"a_p1_c1".data, "a".data, 1, 1, "x".data⟩,
        ⟨"zz_p1_c1".data, "zz".data, 1, 1, "y".data⟩]
      [[(1 : Rat)], [(2 : Rat)]] "m".data "ts".data rfl with ⟨kb, hkb, _, _, hids, _⟩
  rw [hkb]
  rw [show (Except.ok kb : Except (List Char) KnowledgeBase).toOption = some kb from rfl]
  simp only [Option.map]
  rw [hids]
  rfl

/-! ### Lemmas: the loader -/

theorem load_pdfs_filterMap (reader : PyPath → FileRead) (paths : List PyPath) :
    load_pdfs reader paths = paths.filterMap (loadOne reader) := by
  induction paths with
  | nil => rfl
  | cons p rest ih =>
    rw [load_pdfs, List.filterMap_cons]
    cases h : loadOne reader p <;> simp [h, ih]

theorem pagesOf_good (raw : List (List Char)) :
    ∀ pg ∈ pagesOf raw, pg.text ≠ [] ∧ pyStrip pg.text = pg.text := by
  intro pg hpg
  rw [pagesOf] at hpg
  rcases List.mem_filterMap.mp hpg with ⟨ie, _, hie⟩
  simp only [] at hie
  split at hie
  · exact Option.noConfusion hie
  · next hcond =>
    cases hie
    exact ⟨hcond, pyStrip_idem ie.2⟩

theorem loadOne_good (reader : PyPath → FileRead) (p : PyPath) (doc : PDFDocument)
    (h : loadOne reader p = some doc) :
    doc.pages ≠ [] ∧ ∀ pg ∈ doc.pages, pg.text ≠ [] ∧ pyStrip pg.text = pg.text := by
  rw [loadOne] at h
  split at h
  · exact Option.noConfusion h
  · next raw hread =>
    simp only [] at h
    split at h
    · exact Option.noConfusion h
    · next hcond =>
      cases h
      exact ⟨hcond, pagesOf_good raw⟩

/-! ### Claim theorems: the loader -/

/-- C6: for any ordered path list, `load_pdfs` returns exactly the
successfully loaded documents in input order (the `filterMap` of the
per-file outcome — failed or empty files are simply absent, with no
placeholder, and a failure never aborts the rest); every returned
document has at least one page; every page's text is non-empty and
already whitespace-trimmed; and a file whose read raises is skipped. -/
theorem claim_C6_loader_contract (reader : PyPath → FileRead) (paths : List PyPath) :
    load_pdfs reader paths = paths.filterMap (loadOne reader) ∧
      (∀ doc ∈ load_pdfs reader paths, doc.pages ≠ [] ∧
        ∀ pg ∈ doc.pages, pg.text ≠ [] ∧ pyStrip pg.text = pg.text) ∧
      (∀ p, reader p = .failure → loadOne reader p = none) := by
  refine ⟨load_pdfs_filterMap reader paths, ?_, ?_⟩
  · intro doc hdoc
    rw [load_pdfs_filterMap] at hdoc
    rcases List.mem_filterMap.mp hdoc with ⟨p, _, hp⟩
    exact loadOne_good reader p doc hp
  · intro p hp
    rw [loadOne, hp]

end Gices
